import Mathlib

/-!
Shallow embedding of `src/trading_strategies.py` (a Streamlit app computing
trading-strategy indicator series, position signals and backtest returns
with pandas).  Pandas series of float64 values are modelled as `List EF`,
where `EF` captures the IEEE special values the code can actually produce
(`NaN` from missing data / 0/0, `±inf` from division by zero) over exact
rationals.  Pure price data (the `Close` column downloaded from yfinance)
is modelled as `List ℚ`.
-/

/-- A float value of a pandas series: NaN, +inf, -inf, or a finite value
(modelled exactly as a rational). -/
inductive EF where
  | nan : EF
  | inf : EF
  | ninf : EF
  | fin : ℚ → EF
deriving DecidableEq

namespace EF

/-- IEEE negation. -/
def neg : EF → EF
  | nan => nan
  | inf => ninf
  | ninf => inf
  | fin q => fin (-q)

/-- IEEE addition (inf + -inf = NaN). -/
def add : EF → EF → EF
  | nan, _ => nan
  | _, nan => nan
  | inf, ninf => nan
  | ninf, inf => nan
  | inf, _ => inf
  | _, inf => inf
  | ninf, _ => ninf
  | _, ninf => ninf
  | fin a, fin b => fin (a + b)

/-- IEEE subtraction. -/
def sub (a b : EF) : EF := add a (neg b)

/-- IEEE multiplication (inf * 0 = NaN). -/
def mul : EF → EF → EF
  | nan, _ => nan
  | _, nan => nan
  | inf, inf => inf
  | inf, ninf => ninf
  | ninf, inf => ninf
  | ninf, ninf => inf
  | inf, fin b => if b = 0 then nan else if 0 < b then inf else ninf
  | fin a, inf => if a = 0 then nan else if 0 < a then inf else ninf
  | ninf, fin b => if b = 0 then nan else if 0 < b then ninf else inf
  | fin a, ninf => if a = 0 then nan else if 0 < a then ninf else inf
  | fin a, fin b => fin (a * b)

/-- Division with numpy/pandas semantics: x/0 is ±inf for x ≠ 0 and NaN
for x = 0; x/±inf is 0; inf/inf is NaN. -/
def div : EF → EF → EF
  | nan, _ => nan
  | _, nan => nan
  | inf, inf => nan
  | inf, ninf => nan
  | ninf, inf => nan
  | ninf, ninf => nan
  | inf, fin b => if 0 ≤ b then inf else ninf
  | ninf, fin b => if 0 ≤ b then ninf else inf
  | fin _, inf => fin 0
  | fin _, ninf => fin 0
  | fin a, fin b =>
      if b = 0 then (if a = 0 then nan else if 0 < a then inf else ninf)
      else fin (a / b)

/-- IEEE strict less-than: any comparison involving NaN is false. -/
def lt : EF → EF → Bool
  | nan, _ => false
  | _, nan => false
  | inf, _ => false
  | _, inf => true
  | ninf, ninf => false
  | ninf, _ => true
  | _, ninf => false
  | fin a, fin b => decide (a < b)

/-- IEEE less-or-equal: any comparison involving NaN is false. -/
def le : EF → EF → Bool
  | nan, _ => false
  | _, nan => false
  | _, inf => true
  | inf, _ => false
  | ninf, _ => true
  | _, ninf => false
  | fin a, fin b => decide (a ≤ b)

/-- Is this value NaN (pandas "missing")? -/
def isNaN : EF → Bool
  | nan => true
  | _ => false

end EF

/-- `data["Close"].pct_change()`: simple return `p[i]/p[i-1] - 1`, NaN at
index 0. -/
def pctChangeGo (prev : ℚ) : List ℚ → List EF
  | [] => []
  | p :: rest => EF.sub (EF.div (EF.fin p) (EF.fin prev)) (EF.fin 1) :: pctChangeGo p rest

/-- The `Return` column: `data["Close"].pct_change()` (line 44). -/
def pct_change : List ℚ → List EF
  | [] => []
  | p :: rest => EF.nan :: pctChangeGo p rest

/-- `data["Close"].diff()`: per-period price delta, NaN at index 0
(line 89). -/
def seriesDiff : List ℚ → List EF
  | [] => []
  | p :: rest => EF.nan :: List.zipWith (fun a b => EF.fin (b - a)) (p :: rest) rest

/-- All entries of the list are finite (non-NaN, non-infinite). -/
def allFin : List EF → Bool
  | [] => true
  | EF.fin _ :: rest => allFin rest
  | _ => false

/-- Sum of the finite entries of a list. -/
def finSum : List EF → ℚ
  | [] => 0
  | EF.fin q :: rest => q + finSum rest
  | _ :: rest => finSum rest

/-- Mean of one rolling window: pandas `rolling(w).mean()` with the default
`min_periods = w` yields NaN unless every observation in the window is
present. -/
def windowMean (l : List EF) : EF :=
  if allFin l then EF.fin (finSum l / l.length) else EF.nan

/-- `series.rolling(window=w).mean()`: entry `i` is NaN while the window is
not yet full (`i + 1 < w`), otherwise the mean of entries `i-w+1 .. i`. -/
def rollingMean (w : ℕ) (l : List EF) : List EF :=
  (List.range l.length).map (fun i =>
    if i + 1 < w then EF.nan else windowMean ((l.drop (i + 1 - w)).take w))

/-- Recursive step of `ewm(span, adjust=False).mean()`:
`e[t] = α * p[t] + (1 - α) * e[t-1]`. -/
def ewmGo (α : ℚ) (prev : ℚ) : List ℚ → List ℚ
  | [] => []
  | p :: rest =>
      let e := α * p + (1 - α) * prev
      e :: ewmGo α e rest

/-- `series.ewm(span=s, adjust=False).mean()`: exponential moving average
with smoothing `α = 2/(s+1)`, seeded by the first value. -/
def ewm (span : ℕ) : List ℚ → List ℚ
  | [] => []
  | p :: rest => p :: ewmGo (2 / (span + 1)) p rest

/-- `series.shift(1)` applied to the integer `Signal` column: NaN at index 0,
previous entry afterwards, last entry dropped. -/
def shift1 (sig : List ℤ) : List EF :=
  EF.nan :: (sig.map (fun (s : ℤ) => EF.fin (s : ℚ))).dropLast

/-- `series.cumprod()` with the pandas default `skipna=True`: NaN entries
stay NaN and are skipped by the running product. -/
def cumprodGo (acc : EF) : List EF → List EF
  | [] => []
  | x :: rest =>
      if x.isNaN then EF.nan :: cumprodGo acc rest
      else
        let a := EF.mul acc x
        a :: cumprodGo a rest

/-- `series.cumprod()` (skipna), starting the running product at 1. -/
def cumprod (l : List EF) : List EF := cumprodGo (EF.fin 1) l

/-- `(1 + r).cumprod()`: the cumulative return series (lines 165-166). -/
def cumulative (r : List EF) : List EF := cumprod (r.map (fun x => EF.add (EF.fin 1) x))

/-- `series.sum()` with the pandas default `skipna=True`: NaN entries are
skipped, an all-NaN (or empty) series sums to 0. -/
def seriesSum (l : List EF) : EF :=
  l.foldl (fun acc x => if x.isNaN then acc else EF.add acc x) (EF.fin 0)

/-! ## Strategy branches -/

/-- The strategies offered by the sidebar selectbox (lines 14-17). -/
def strategyOptions : List String :=
  ["Moving Averages", "RSI (Relative Strength Index)",
   "MACD (Moving Average Convergence Divergence)"]

/-- The per-strategy numeric parameters, with the sliders' default values
(lines 56-57, 87, 127-129). -/
structure Params where
  short_window : ℕ := 20
  long_window : ℕ := 100
  rsi_period : ℕ := 14
  short_ema : ℕ := 12
  long_ema : ℕ := 26
  signal_period : ℕ := 9
deriving DecidableEq

/-- The default parameter set of the sliders. -/
def defaultParams : Params := {}

/-- `data["Close"].rolling(window=w).mean()` on the (all-present) close
prices: the simple moving average used for `Short_MA` and `Long_MA`
(lines 60-61). -/
def sma (w : ℕ) (close : List ℚ) : List EF :=
  rollingMean w (close.map EF.fin)

/-- `Short_MA` (line 60). -/
def Short_MA (close : List ℚ) (ps : Params) : List EF := sma ps.short_window close

/-- `Long_MA` (line 61). -/
def Long_MA (close : List ℚ) (ps : Params) : List EF := sma ps.long_window close

/-- The Moving Averages `Signal` column (lines 64-66): start from 0, set 1
where `Short_MA > Long_MA`, then set -1 where `Short_MA <= Long_MA` (the
later assignment wins where both conditions held, but they are disjoint;
NaN satisfies neither). -/
def maSignal (close : List ℚ) (ps : Params) : List ℤ :=
  List.zipWith (fun s l => if EF.le s l then -1 else if EF.lt l s then 1 else 0)
    (Short_MA close ps) (Long_MA close ps)

/-- The raw gain series `delta.where(delta > 0, 0)` (line 90): keep the
delta where it is positive, else 0; the NaN delta at index 0 fails the
comparison and becomes 0 as well. -/
def gainRaw (delta : List EF) : List EF :=
  delta.map (fun d => if EF.lt (EF.fin 0) d then d else EF.fin 0)

/-- The raw loss series `-delta.where(delta < 0, 0)` (line 91). -/
def lossRaw (delta : List EF) : List EF :=
  delta.map (fun d => EF.neg (if EF.lt d (EF.fin 0) then d else EF.fin 0))

/-- `gain` (line 90): rolling mean of the raw gains. -/
def gain (close : List ℚ) (p : ℕ) : List EF := rollingMean p (gainRaw (seriesDiff close))

/-- `loss` (line 91): rolling mean of the raw losses. -/
def loss (close : List ℚ) (p : ℕ) : List EF := rollingMean p (lossRaw (seriesDiff close))

/-- `data["RSI"] = 100 - (100 / (1 + rs))` with `rs = gain / loss`
(lines 92-93). -/
def RSI (close : List ℚ) (p : ℕ) : List EF :=
  List.zipWith
    (fun g l =>
      EF.sub (EF.fin 100) (EF.div (EF.fin 100) (EF.add (EF.fin 1) (EF.div g l))))
    (gain close p) (loss close p)

/-- The RSI `Signal` column (lines 96-98): 1 where `RSI < 30`, -1 where
`RSI > 70`, 0 otherwise (NaN satisfies neither comparison). -/
def rsiSignal (close : List ℚ) (ps : Params) : List ℤ :=
  (RSI close ps.rsi_period).map
    (fun r => if EF.lt (EF.fin 70) r then -1 else if EF.lt r (EF.fin 30) then 1 else 0)

/-- `data["MACD"] = Short_EMA - Long_EMA` (lines 132-134); EMAs of the
all-present close prices are themselves everywhere present. -/
def MACD (close : List ℚ) (ps : Params) : List ℚ :=
  List.zipWith (fun a b => a - b) (ewm ps.short_ema close) (ewm ps.long_ema close)

/-- `data["Signal_Line"] = data["MACD"].ewm(span=signal_period,
adjust=False).mean()` (line 135). -/
def Signal_Line (close : List ℚ) (ps : Params) : List ℚ :=
  ewm ps.signal_period (MACD close ps)

/-- The MACD `Signal` column (lines 138-140): 1 where `MACD > Signal_Line`,
-1 where `MACD < Signal_Line`, 0 only at exact equality. -/
def macdSignal (close : List ℚ) (ps : Params) : List ℤ :=
  List.zipWith (fun m s => if m < s then -1 else if s < m then 1 else 0)
    (MACD close ps) (Signal_Line close ps)

/-- `data["Strategy_Return"] = data["Signal"].shift(1) * data["Return"]`
(lines 69, 101, 143). -/
def Strategy_Return (sig : List ℤ) (ret : List EF) : List EF :=
  List.zipWith EF.mul (shift1 sig) ret

/-- The strategy dispatch (the if/elif chain at lines 53, 84, 124): the
`Signal` column the matched branch computes, or `none` when no branch
matches (the chain has no else). -/
def dispatchSignal (strategy : String) (close : List ℚ) (ps : Params) : Option (List ℤ) :=
  if strategy = "Moving Averages" then some (maSignal close ps)
  else if strategy = "RSI (Relative Strength Index)" then some (rsiSignal close ps)
  else if strategy = "MACD (Moving Average Convergence Divergence)" then
    some (macdSignal close ps)
  else none

/-- The outputs of one run: cumulative return series (lines 165-166) and
summary totals (lines 181-182). -/
structure BacktestOutput where
  cumulativeMarket : List EF
  cumulativeStrategy : List EF
  totalMarket : EF
  totalStrategy : EF
deriving DecidableEq

/-- One run of the script for a given strategy name and close-price series.
When the dispatch matched no branch, no `Strategy_Return` column exists and
line 166 fails with a `KeyError` instead of producing output; no
`InvalidStrategyError` exists anywhere in the program. -/
def runBacktest (strategy : String) (close : List ℚ) (ps : Params) :
    Except String BacktestOutput :=
  let ret := pct_change close
  match dispatchSignal strategy close ps with
  | some sig =>
      let sr := Strategy_Return sig ret
      .ok ⟨cumulative ret, cumulative sr, seriesSum ret, seriesSum sr⟩
  | none => .error "KeyError: Strategy_Return"

/-! ## Auxiliary definitions for stating the claims -/

/-- Embed an optional rational (a possibly-missing observation) as a pandas
float: `none` is NaN. -/
def embedOpt : Option ℚ → EF
  | none => EF.nan
  | some q => EF.fin q

/-- `Π (1 + r[i])` over the defined entries of a return series: an absent
entry contributes the multiplicative identity. -/
def definedProd : List (Option ℚ) → ℚ
  | [] => 1
  | none :: rest => definedProd rest
  | some q :: rest => (1 + q) * definedProd rest

/-! ## Basic lemmas about the embedding -/

theorem length_seriesDiff (close : List ℚ) : (seriesDiff close).length = close.length := by
  cases close with
  | nil => rfl
  | cons p rest =>
      simp [seriesDiff, List.length_zipWith]

theorem length_rollingMean (w : ℕ) (l : List EF) : (rollingMean w l).length = l.length := by
  simp [rollingMean]

theorem rollingMean_getElem (w : ℕ) (l : List EF) (i : ℕ) (hi : i < l.length) :
    (rollingMean w l)[i]? =
      some (if i + 1 < w then EF.nan else windowMean ((l.drop (i + 1 - w)).take w)) := by
  simp [rollingMean, List.getElem?_map, List.getElem?_range hi]

theorem seriesDiff_getElem_zero (close : List ℚ) (h : 0 < close.length) :
    (seriesDiff close)[0]? = some EF.nan := by
  cases close with
  | nil => simp at h
  | cons p rest => simp [seriesDiff]

theorem seriesDiff_getElem_succ (close : List ℚ) (j : ℕ) (h : j + 1 < close.length) :
    (seriesDiff close)[j + 1]? =
      some (EF.fin (close.getD (j + 1) 0 - close.getD j 0)) := by
  cases close with
  | nil => simp at h
  | cons p rest =>
      simp only [seriesDiff, List.getElem?_cons_succ, List.getElem?_zipWith]
      have hj : j < rest.length := by simpa using h
      have h1 : (p :: rest)[j]? = some ((p :: rest).getD j 0) := by
        rw [List.getD_eq_getElem?_getD]
        rw [List.getElem?_eq_getElem (by simpa using Nat.lt_succ_of_lt hj)]
        rfl
      have h2 : rest[j]? = some (rest.getD j 0) := by
        rw [List.getD_eq_getElem?_getD, List.getElem?_eq_getElem hj]
        rfl
      rw [h1, h2]
      have : (p :: rest).getD (j + 1) 0 = rest.getD j 0 := by
        simp [List.getD]
      rw [this]

theorem seriesDiff_nan_or_fin (close : List ℚ) :
    ∀ e ∈ seriesDiff close, e = EF.nan ∨ ∃ q, e = EF.fin q := by
  cases close with
  | nil => intro e he; simp [seriesDiff] at he
  | cons p rest =>
      intro e he
      simp only [seriesDiff, List.mem_cons] at he
      rcases he with h | h
      · exact Or.inl h
      · rcases List.mem_iff_getElem?.1 h with ⟨n, hn⟩
        rw [List.getElem?_zipWith] at hn
        rcases h1 : (p :: rest)[n]? with _ | a <;> rw [h1] at hn
        · simp at hn
        · rcases h2 : rest[n]? with _ | b <;> rw [h2] at hn
          · simp at hn
          · exact Or.inr ⟨b - a, by simpa using hn.symm⟩

theorem allFin_iff (l : List EF) : allFin l = true ↔ ∀ e ∈ l, ∃ q, e = EF.fin q := by
  induction l with
  | nil => simp [allFin]
  | cons x rest ih =>
      cases x with
      | nan => simp [allFin]
      | inf => simp [allFin]
      | ninf => simp [allFin]
      | fin q => simp [allFin, ih]

theorem finSum_map_fin (l : List ℚ) : finSum (l.map EF.fin) = l.sum := by
  induction l with
  | nil => rfl
  | cons x rest ih => simp [finSum, ih]

theorem allFin_map_fin (l : List ℚ) : allFin (l.map EF.fin) = true := by
  induction l with
  | nil => rfl
  | cons x rest ih => simpa [allFin] using ih

theorem finSum_zero_of_all_zero (l : List EF) (h : ∀ e ∈ l, e = EF.fin 0) :
    finSum l = 0 := by
  induction l with
  | nil => rfl
  | cons x rest ih =>
      have hx := h x (List.mem_cons_self x rest)
      subst hx
      simp only [finSum]
      rw [ih (fun e he => h e (List.mem_cons_of_mem _ he))]
      norm_num

theorem windowMean_zero (l : List EF) (h : ∀ e ∈ l, e = EF.fin 0) :
    windowMean l = EF.fin 0 := by
  have hfin : allFin l = true := (allFin_iff l).2 (fun e he => ⟨0, h e he⟩)
  have hsum := finSum_zero_of_all_zero l h
  simp [windowMean, hfin, hsum]

theorem finSum_pos (l : List EF) (h : ∀ e ∈ l, ∃ q, e = EF.fin q ∧ 0 < q)
    (hne : l ≠ []) : 0 < finSum l := by
  induction l with
  | nil => exact absurd rfl hne
  | cons x rest ih =>
      rcases h x (List.mem_cons_self x rest) with ⟨q, hx, hq⟩
      subst hx
      simp only [finSum]
      rcases rest.eq_nil_or_concat with hr | _
      · cases rest with
        | nil => simpa [finSum] using hq
        | cons y t => simp at hr
      · cases rest with
        | nil => simpa [finSum] using hq
        | cons y t =>
            have := ih (fun e he => h e (List.mem_cons_of_mem _ he)) (by simp)
            positivity

theorem finSum_nonneg (l : List EF) (h : ∀ e ∈ l, ∃ q, e = EF.fin q ∧ 0 ≤ q) :
    0 ≤ finSum l := by
  induction l with
  | nil => simp [finSum]
  | cons x rest ih =>
      rcases h x (List.mem_cons_self x rest) with ⟨q, hx, hq⟩
      subst hx
      simp only [finSum]
      have := ih (fun e he => h e (List.mem_cons_of_mem _ he))
      positivity

theorem EF.mul_nan_left (x : EF) : EF.mul EF.nan x = EF.nan := by
  cases x <;> rfl

theorem EF.mul_nan_right (x : EF) : EF.mul x EF.nan = EF.nan := by
  cases x <;> rfl

theorem window_length (l : List EF) (a w : ℕ) (haw : a + w ≤ l.length) :
    ((l.drop a).take w).length = w := by
  simp only [List.length_take, List.length_drop]
  omega

theorem mem_window (l : List EF) (a w : ℕ) (e : EF) (he : e ∈ (l.drop a).take w) :
    ∃ k, k < w ∧ l[a + k]? = some e := by
  rcases List.mem_iff_getElem?.1 he with ⟨n, hn⟩
  rw [List.getElem?_take] at hn
  by_cases hnw : n < w
  · rw [if_pos hnw, List.getElem?_drop] at hn
    exact ⟨n, hnw, hn⟩
  · rw [if_neg hnw] at hn
    simp at hn

theorem length_gainRaw (d : List EF) : (gainRaw d).length = d.length := by
  simp [gainRaw]

theorem length_lossRaw (d : List EF) : (lossRaw d).length = d.length := by
  simp [lossRaw]

theorem length_gain (close : List ℚ) (p : ℕ) : (gain close p).length = close.length := by
  simp [gain, length_rollingMean, length_gainRaw, length_seriesDiff]

theorem length_loss (close : List ℚ) (p : ℕ) : (loss close p).length = close.length := by
  simp [loss, length_rollingMean, length_lossRaw, length_seriesDiff]

theorem gain_getElem (close : List ℚ) (p i : ℕ) (hi : i < close.length) :
    (gain close p)[i]? = some (if i + 1 < p then EF.nan
      else windowMean (((gainRaw (seriesDiff close)).drop (i + 1 - p)).take p)) := by
  have h : i < (gainRaw (seriesDiff close)).length := by
    rw [length_gainRaw, length_seriesDiff]; exact hi
  exact rollingMean_getElem p _ i h

theorem loss_getElem (close : List ℚ) (p i : ℕ) (hi : i < close.length) :
    (loss close p)[i]? = some (if i + 1 < p then EF.nan
      else windowMean (((lossRaw (seriesDiff close)).drop (i + 1 - p)).take p)) := by
  have h : i < (lossRaw (seriesDiff close)).length := by
    rw [length_lossRaw, length_seriesDiff]; exact hi
  exact rollingMean_getElem p _ i h

theorem RSI_entry (close : List ℚ) (p i : ℕ) (g l : EF)
    (hg : (gain close p)[i]? = some g) (hl : (loss close p)[i]? = some l) :
    (RSI close p)[i]? =
      some (EF.sub (EF.fin 100)
        (EF.div (EF.fin 100) (EF.add (EF.fin 1) (EF.div g l)))) := by
  simp only [RSI, List.getElem?_zipWith, hg, hl]

theorem shift1_getElem_zero (sig : List ℤ) : (shift1 sig)[0]? = some EF.nan := by
  simp [shift1]

theorem shift1_getElem_succ (sig : List ℤ) (t : ℕ) (h : t + 1 < sig.length) :
    (shift1 sig)[t + 1]? = some (EF.fin ((sig.getD t 0 : ℤ) : ℚ)) := by
  have ht : t < sig.length := Nat.lt_of_succ_lt h
  simp only [shift1, List.getElem?_cons_succ, List.getElem?_dropLast, List.length_map]
  rw [if_pos (by omega), List.getElem?_map, List.getElem?_eq_getElem ht]
  rw [List.getD_eq_getElem?_getD, List.getElem?_eq_getElem ht]
  rfl

/-- **C1** — corrected.  The claim asserts the program provides a Bollinger
Bands strategy; the strategy selectbox (lines 14-17) offers only Moving
Averages, RSI and MACD, and the if/elif dispatch has no Bollinger branch,
so the name "Bollinger Bands" computes no signal at all. -/
theorem C1_no_bollinger :
    strategyOptions = ["Moving Averages", "RSI (Relative Strength Index)",
      "MACD (Moving Average Convergence Divergence)"] ∧
    ∀ (close : List ℚ) (ps : Params),
      dispatchSignal "Bollinger Bands" close ps = none := by
  refine ⟨rfl, fun close ps => ?_⟩
  simp [dispatchSignal]

/-- **C1** counterexample: "Bollinger Bands" is not an available strategy
and dispatching it produces no signal series. -/
theorem C1_counterexample :
    "Bollinger Bands" ∉ strategyOptions ∧
      dispatchSignal "Bollinger Bands" [1, 2, 3] defaultParams = none := by
  constructor
  · decide
  · with_unfolding_all rfl

/-- **C3** — corrected.  An unknown strategy name raises no
`InvalidStrategyError`: the if/elif chain (lines 53, 84, 124) has no else
branch, so no signal series is produced at all (a silent no-op at the
strategy stage) and the run only fails afterwards with a `KeyError` for
the missing `Strategy_Return` column at line 166. -/
theorem C3_unknown_strategy (s : String) (close : List ℚ) (ps : Params)
    (h : s ∉ strategyOptions) :
    dispatchSignal s close ps = none ∧
      runBacktest s close ps = .error "KeyError: Strategy_Return" := by
  have h1 : ¬(s = "Moving Averages") := fun he => h (by simp [strategyOptions, he])
  have h2 : ¬(s = "RSI (Relative Strength Index)") := fun he =>
    h (by simp [strategyOptions, he])
  have h3 : ¬(s = "MACD (Moving Average Convergence Divergence)") := fun he =>
    h (by simp [strategyOptions, he])
  have hd : dispatchSignal s close ps = none := by
    simp [dispatchSignal, h1, h2, h3]
  exact ⟨hd, by simp [runBacktest, hd]⟩

/-- **C3** witness at the concrete unknown name "Buy and Hold". -/
theorem C3_unknown_strategy_witness :
    "Buy and Hold" ∉ strategyOptions ∧
      runBacktest "Buy and Hold" [1, 2, 3] defaultParams =
        .error "KeyError: Strategy_Return" :=
  ⟨by decide, (C3_unknown_strategy "Buy and Hold" [1, 2, 3] defaultParams (by decide)).2⟩

/-- **C3** counterexample: at the unknown name "Buy and Hold" the program
does not fail with anything named like an invalid-strategy validation
error; the only failure is the missing-column KeyError, and the dispatch
itself is a silent no-op. -/
theorem C3_counterexample :
    dispatchSignal "Buy and Hold" [1, 2, 3] defaultParams = none ∧
      runBacktest "Buy and Hold" [1, 2, 3] defaultParams =
        .error "KeyError: Strategy_Return" ∧
      runBacktest "Buy and Hold" [1, 2, 3] defaultParams ≠
        .error "InvalidStrategyError" := by
  refine ⟨by with_unfolding_all rfl, by with_unfolding_all rfl, ?_⟩
  intro hcon
  have : ("KeyError: Strategy_Return" : String) = "InvalidStrategyError" := by
    have h1 : runBacktest "Buy and Hold" [1, 2, 3] defaultParams =
        .error "KeyError: Strategy_Return" := by with_unfolding_all rfl
    rw [h1] at hcon
    exact Except.error.inj hcon
  simp at this

/-- **C4** — confirmed.  `Strategy_Return[t] = Signal[t-1] * Return[t]`
(the signal lagged by exactly one period, lines 69/101/143) and
`Strategy_Return[0]` is NaN because the shifted signal has no entry there;
the product with a NaN signal or NaN return is itself NaN. -/
theorem C4_lagged_return (sig : List ℤ) (ret : List EF)
    (hlen : sig.length = ret.length) :
    (∀ (h0 : 0 < ret.length), (Strategy_Return sig ret)[0]? = some EF.nan) ∧
    (∀ t, t + 1 < ret.length →
      (Strategy_Return sig ret)[t + 1]? =
        some (EF.mul (EF.fin ((sig.getD t 0 : ℤ) : ℚ)) (ret.getD (t + 1) EF.nan))) := by
  constructor
  · intro h0
    rw [Strategy_Return, List.getElem?_zipWith, shift1_getElem_zero,
      List.getElem?_eq_getElem h0]
    simp [EF.mul_nan_left]
  · intro t ht
    have hr : ret.getD (t + 1) EF.nan = ret[t + 1] := by
      rw [List.getD_eq_getElem?_getD, List.getElem?_eq_getElem ht]
      rfl
    rw [Strategy_Return, List.getElem?_zipWith,
      shift1_getElem_succ sig t (by omega), List.getElem?_eq_getElem ht, hr]

/-- **C4** witness: the spec's concrete example,
`Signal = [1,1,-1,0]`, `Return = [NA, 0.02, 0.01, -0.03]`, index 2. -/
theorem C4_lagged_return_witness :
    (Strategy_Return [1, 1, -1, 0]
        [EF.nan, EF.fin (2/100), EF.fin (1/100), EF.fin (-3/100)])[2]? =
      some (EF.fin (1/100)) := by
  have h := (C4_lagged_return [1, 1, -1, 0]
    [EF.nan, EF.fin (2/100), EF.fin (1/100), EF.fin (-3/100)] rfl).2 1 (by decide)
  exact h.trans (by with_unfolding_all rfl)

theorem rsiSignal_nan_flat (close : List ℚ) (ps : Params) (i : ℕ)
    (h : (RSI close ps.rsi_period)[i]? = some EF.nan) :
    (rsiSignal close ps)[i]? = some 0 := by
  simp only [rsiSignal, List.getElem?_map, h]
  simp [EF.lt]

theorem maSignal_nan_flat (close : List ℚ) (ps : Params) (i : ℕ) (s l : EF)
    (hs : (Short_MA close ps)[i]? = some s) (hl : (Long_MA close ps)[i]? = some l)
    (hnan : s = EF.nan ∨ l = EF.nan) : (maSignal close ps)[i]? = some 0 := by
  simp only [maSignal, List.getElem?_zipWith, hs, hl]
  rcases hnan with h | h
  · subst h
    cases l <;> simp [EF.le, EF.lt]
  · subst h
    cases s <;> simp [EF.le, EF.lt]

/-- **C6** — confirmed.  An absent (NaN) indicator value satisfies neither
a `<` nor a `>` comparison, so the signal assignments leave the initial 0:
an absent RSI yields signal 0, and an absent moving average yields
signal 0 in the Moving Averages branch. -/
theorem C6_absent_is_flat (close : List ℚ) (ps : Params) (i : ℕ) :
    ((RSI close ps.rsi_period)[i]? = some EF.nan → (rsiSignal close ps)[i]? = some 0) ∧
    (∀ s l, (Short_MA close ps)[i]? = some s → (Long_MA close ps)[i]? = some l →
      s = EF.nan ∨ l = EF.nan → (maSignal close ps)[i]? = some 0) :=
  ⟨rsiSignal_nan_flat close ps i,
   fun s l hs hl hnan => maSignal_nan_flat close ps i s l hs hl hnan⟩

/-- **C6** witness at index 0 of a 3-entry price series (both indicators
absent there). -/
theorem C6_absent_is_flat_witness :
    (rsiSignal [1, 2, 3] defaultParams)[0]? = some 0 ∧
      (maSignal [1, 2, 3] defaultParams)[0]? = some 0 := by
  constructor
  · exact (C6_absent_is_flat [1, 2, 3] defaultParams 0).1 (by with_unfolding_all rfl)
  · exact (C6_absent_is_flat [1, 2, 3] defaultParams 0).2 EF.nan EF.nan
      (by with_unfolding_all rfl) (by with_unfolding_all rfl) (Or.inl rfl)

theorem windowMean_nan_or_fin (l : List EF) :
    windowMean l = EF.nan ∨ ∃ q, windowMean l = EF.fin q := by
  unfold windowMean
  by_cases h : allFin l
  · exact Or.inr ⟨finSum l / l.length, by simp [h]⟩
  · exact Or.inl (by simp [h])

theorem sma_nan_or_fin (close : List ℚ) (w i : ℕ) (x : EF)
    (hx : (sma w close)[i]? = some x) : x = EF.nan ∨ ∃ q, x = EF.fin q := by
  have hi : i < (close.map EF.fin).length := by
    rcases List.getElem?_eq_some.1 hx with ⟨h, _⟩
    rw [sma, length_rollingMean] at h
    exact h
  rw [sma, rollingMean_getElem _ _ _ hi] at hx
  have hx' := Option.some.inj hx
  by_cases hw : i + 1 < w
  · left
    rw [← hx', if_pos hw]
  · rw [← hx', if_neg hw]
    exact windowMean_nan_or_fin _

/-- **C7** — corrected.  At every index where both moving averages are
defined, the Moving Averages signal is exactly the binary rule of lines
64-66: +1 where `Short_MA > Long_MA` (`EF.lt l s`), -1 where
`Short_MA ≤ Long_MA` (`EF.le s l`), and always one of the two; during the
warm-up, where either average is NaN, both comparisons are false and the
signal keeps its initial value 0 — so the series is not everywhere ±1. -/
theorem C7_ma_binary_where_defined (close : List ℚ) (ps : Params) (i : ℕ) (s l : EF)
    (hs : (Short_MA close ps)[i]? = some s) (hl : (Long_MA close ps)[i]? = some l) :
    (s ≠ EF.nan → l ≠ EF.nan →
      (EF.lt l s = true → (maSignal close ps)[i]? = some 1) ∧
      (EF.le s l = true → (maSignal close ps)[i]? = some (-1)) ∧
      ((maSignal close ps)[i]? = some 1 ∨ (maSignal close ps)[i]? = some (-1))) ∧
    ((s = EF.nan ∨ l = EF.nan) → (maSignal close ps)[i]? = some 0) := by
  constructor
  · intro hsn hln
    rcases sma_nan_or_fin close ps.short_window i s hs with h | ⟨a, ha⟩
    · exact absurd h hsn
    rcases sma_nan_or_fin close ps.long_window i l hl with h | ⟨b, hb⟩
    · exact absurd h hln
    subst ha hb
    have hsig : (maSignal close ps)[i]? =
        some (if EF.le (EF.fin a) (EF.fin b) then -1
          else if EF.lt (EF.fin b) (EF.fin a) then 1 else 0) := by
      simp only [maSignal, List.getElem?_zipWith, hs, hl]
    refine ⟨?_, ?_, ?_⟩
    · intro hlt
      have hba : b < a := by simpa [EF.lt] using hlt
      rw [hsig, if_neg (by simp [EF.le]; exact hba), if_pos hlt]
    · intro hle
      rw [hsig, if_pos hle]
    · by_cases hab : a ≤ b
      · right
        rw [hsig, if_pos (by simp [EF.le, hab])]
      · left
        rw [hsig, if_neg (by simp [EF.le, hab]),
          if_pos (by simp [EF.lt]; exact lt_of_not_le hab)]
  · exact maSignal_nan_flat close ps i s l hs hl

/-- **C7** witness: with windows 2 and 3, at index 2 of the rising series
[1,2,3,4,5,6] the short average 5/2 exceeds the long average 2 and the
signal is +1; at index 2 of the falling series [6,5,4,3,2,1] the short
average 9/2 is below the long average 5 and the signal is -1; at index 0
the long average is NaN and the signal is 0. -/
theorem C7_ma_binary_where_defined_witness :
    (maSignal [1, 2, 3, 4, 5, 6] ⟨2, 3, 14, 12, 26, 9⟩)[2]? = some 1 ∧
    (maSignal [6, 5, 4, 3, 2, 1] ⟨2, 3, 14, 12, 26, 9⟩)[2]? = some (-1) ∧
    (maSignal [1, 2, 3, 4, 5, 6] ⟨2, 3, 14, 12, 26, 9⟩)[0]? = some 0 := by
  refine ⟨?_, ?_, ?_⟩
  · exact ((C7_ma_binary_where_defined [1, 2, 3, 4, 5, 6] ⟨2, 3, 14, 12, 26, 9⟩ 2
      (EF.fin (5/2)) (EF.fin 2) (by with_unfolding_all rfl)
      (by with_unfolding_all rfl)).1 (by simp) (by simp)).1
      (by norm_num [EF.lt])
  · exact ((C7_ma_binary_where_defined [6, 5, 4, 3, 2, 1] ⟨2, 3, 14, 12, 26, 9⟩ 2
      (EF.fin (9/2)) (EF.fin 5) (by with_unfolding_all rfl)
      (by with_unfolding_all rfl)).1 (by simp) (by simp)).2.1
      (by norm_num [EF.le])
  · exact (C7_ma_binary_where_defined [1, 2, 3, 4, 5, 6] ⟨2, 3, 14, 12, 26, 9⟩ 0
      EF.nan EF.nan (by with_unfolding_all rfl)
      (by with_unfolding_all rfl)).2 (Or.inr rfl)

/-- **C7** counterexample: on a constant price series of length 3 with the
default windows every signal entry is 0, so the claim "every entry is
either +1 or -1 and never 0" fails. -/
theorem C7_counterexample :
    maSignal (List.replicate 3 (1 : ℚ)) defaultParams = [0, 0, 0] ∧
      (0 : ℤ) ∈ maSignal (List.replicate 3 (1 : ℚ)) defaultParams := by
  constructor
  · with_unfolding_all rfl
  · have h : maSignal (List.replicate 3 (1 : ℚ)) defaultParams = [0, 0, 0] := by
      with_unfolding_all rfl
    rw [h]
    simp

theorem cumprodGo_embed (r : List (Option ℚ)) :
    ∀ (a : ℚ) (t : ℕ), t < r.length →
      (cumprodGo (EF.fin a) (r.map (fun x => EF.add (EF.fin 1) (embedOpt x))))[t]? =
        some (match r.getD t none with
          | none => EF.nan
          | some _ => EF.fin (a * definedProd (r.take (t + 1)))) := by
  induction r with
  | nil => intro a t ht; simp at ht
  | cons x rest ih =>
      intro a t ht
      cases x with
      | none =>
          cases t with
          | zero => simp [embedOpt, cumprodGo, EF.add, EF.isNaN, List.getD]
          | succ t' =>
              have ht' : t' < rest.length := by simpa using ht
              have step := ih a t' ht'
              simp only [List.map_cons]
              have hred : cumprodGo (EF.fin a)
                  (EF.add (EF.fin 1) (embedOpt none) ::
                    rest.map (fun x => EF.add (EF.fin 1) (embedOpt x))) =
                  EF.nan ::
                    cumprodGo (EF.fin a) (rest.map (fun x => EF.add (EF.fin 1) (embedOpt x))) := rfl
              rw [hred, List.getElem?_cons_succ, step]
              simp [List.getD, definedProd]
      | some q =>
          cases t with
          | zero =>
              simp [embedOpt, cumprodGo, EF.add, EF.isNaN, EF.mul, List.getD, definedProd]
          | succ t' =>
              have ht' : t' < rest.length := by simpa using ht
              have step := ih (a * (1 + q)) t' ht'
              simp only [List.map_cons]
              have hred : cumprodGo (EF.fin a)
                  (EF.add (EF.fin 1) (embedOpt (some q)) ::
                    rest.map (fun x => EF.add (EF.fin 1) (embedOpt x))) =
                  EF.fin (a * (1 + q)) ::
                    cumprodGo (EF.fin (a * (1 + q)))
                      (rest.map (fun x => EF.add (EF.fin 1) (embedOpt x))) := rfl
              rw [hred, List.getElem?_cons_succ, step]
              have hd : ((some q :: rest).getD (t' + 1) none) = rest.getD t' none := by
                simp [List.getD]
              rw [hd]
              cases hq : rest.getD t' none with
              | none => simp
              | some q' =>
                  simp only [List.take_succ_cons, definedProd]
                  rw [mul_assoc]

/-- **C2** — corrected.  `Cumulative[t]` is the product of `(1 + r[i])`
over the *defined* entries `i ≤ t` — an absent return contributes the
multiplicative identity to later entries — but pandas `cumprod` (skipna)
leaves the entry itself NaN wherever `r[t]` is NaN, so `Cumulative[0]` is
NaN, not 1.0: the series is not defined at the warm-up boundary. -/
theorem C2_cumulative_product (r : List (Option ℚ)) (t : ℕ) (ht : t < r.length) :
    (cumulative (r.map embedOpt))[t]? =
      some (match r.getD t none with
        | none => EF.nan
        | some _ => EF.fin (definedProd (r.take (t + 1)))) := by
  have h := cumprodGo_embed r 1 t ht
  rw [cumulative, cumprod, List.map_map]
  have hfun : ((fun x => EF.add (EF.fin 1) x) ∘ embedOpt) =
      (fun x => EF.add (EF.fin 1) (embedOpt x)) := rfl
  rw [hfun, h]
  cases hq : r.getD t none with
  | none => simp
  | some q => simp [one_mul]

/-- **C2** witness: the spec's example `Return = [NA, 0.1, -0.1]` at
`t = 2` gives `Cumulative[2] = 0.99`. -/
theorem C2_cumulative_product_witness :
    (cumulative (([none, some (1/10), some (-1/10)] : List (Option ℚ)).map embedOpt))[2]? =
      some (EF.fin (99/100)) := by
  have h := C2_cumulative_product ([none, some (1/10), some (-1/10)] : List (Option ℚ))
    2 (by decide)
  exact h.trans (by with_unfolding_all rfl)

/-- **C2** counterexample: for `Return = [NA, 0.1, -0.1]` the cumulative
series is `[NaN, 1.1, 0.99]`, not `[1.0, 1.1, 0.99]` — its first entry is
absent, refuting "every entry of the cumulative series is defined". -/
theorem C2_counterexample :
    cumulative [EF.nan, EF.fin (1/10), EF.fin (-1/10)] =
        [EF.nan, EF.fin (11/10), EF.fin (99/100)] ∧
      (cumulative [EF.nan, EF.fin (1/10), EF.fin (-1/10)])[0]? ≠ some (EF.fin 1) := by
  have h : cumulative [EF.nan, EF.fin (1/10), EF.fin (-1/10)] =
      [EF.nan, EF.fin (11/10), EF.fin (99/100)] := by with_unfolding_all rfl
  refine ⟨h, ?_⟩
  rw [h]
  intro hcon
  exact EF.noConfusion (Option.some.inj hcon)

theorem sum_window (close : List ℚ) (w : ℕ) :
    ∀ (a : ℕ), a + w ≤ close.length →
      ((close.drop a).take w).sum = ∑ j in Finset.range w, close.getD (a + j) 0 := by
  induction w with
  | zero => intro a _; simp
  | succ w' ih =>
      intro a haw
      have ha : a < close.length := by omega
      rw [List.drop_eq_getElem_cons ha, List.take_succ_cons, List.sum_cons,
        ih (a + 1) (by omega), Finset.sum_range_succ']
      have hgd : close.getD (a + 0) 0 = close[a] := by
        rw [Nat.add_zero, List.getD_eq_getElem?_getD, List.getElem?_eq_getElem ha]
        rfl
      rw [hgd]
      have hsum : ∑ j in Finset.range w', close.getD (a + 1 + j) 0 =
          ∑ j in Finset.range w', close.getD (a + (j + 1)) 0 :=
        Finset.sum_congr rfl (fun j _ => by
          rw [show a + 1 + j = a + (j + 1) by omega])
      rw [hsum]
      ring

/-- **C9** — confirmed.  The simple moving average with window `w` is
absent for `i < w - 1` and equals the arithmetic mean of the trailing `w`
closes for `i ≥ w - 1`; `Short_MA` and `Long_MA` are exactly this
transform at the two chosen windows. -/
theorem C9_sma_mean (close : List ℚ) (w i : ℕ) (hi : i < close.length) :
    (i + 1 < w → (sma w close)[i]? = some EF.nan) ∧
    (w ≤ i + 1 → (sma w close)[i]? =
      some (EF.fin ((∑ j in Finset.range w, close.getD (i + 1 - w + j) 0) / (w : ℚ)))) ∧
    (∀ ps : Params, Short_MA close ps = sma ps.short_window close ∧
      Long_MA close ps = sma ps.long_window close) := by
  have hmap : i < (close.map EF.fin).length := by simpa using hi
  refine ⟨?_, ?_, fun ps => ⟨rfl, rfl⟩⟩
  · intro hw
    rw [sma, rollingMean_getElem w _ i hmap, if_pos hw]
  · intro hw
    rw [sma, rollingMean_getElem w _ i hmap, if_neg (by omega)]
    rw [← List.map_drop, ← List.map_take, windowMean]
    rw [if_pos (allFin_map_fin _), finSum_map_fin, List.length_map]
    have hlen : ((close.drop (i + 1 - w)).take w).length = w := by
      simp only [List.length_take, List.length_drop]
      omega
    rw [hlen, sum_window close w (i + 1 - w) (by omega)]

/-- **C9** witness at `close = [1,2,3,4]`, `w = 2`: absent at index 0,
mean (5/2) at index 2. -/
theorem C9_sma_mean_witness :
    (sma 2 [1, 2, 3, 4])[0]? = some EF.nan ∧
      (sma 2 [1, 2, 3, 4])[2]? = some (EF.fin (5/2)) := by
  constructor
  · exact (C9_sma_mean [1, 2, 3, 4] 2 0 (by decide)).1 (by decide)
  · exact ((C9_sma_mean [1, 2, 3, 4] 2 2 (by decide)).2.1 (by decide)).trans
      (by with_unfolding_all rfl)

theorem windowMean_pos (L : List EF) (h : ∀ e ∈ L, ∃ q, e = EF.fin q ∧ 0 < q)
    (hne : L ≠ []) : ∃ g, windowMean L = EF.fin g ∧ 0 < g := by
  have hfin : allFin L = true :=
    (allFin_iff L).2 (fun e he => (h e he).imp (fun q hq => hq.1))
  have hsum : 0 < finSum L := finSum_pos L h hne
  have hlen : 0 < (L.length : ℚ) := by
    have := List.length_pos.2 hne
    exact_mod_cast this
  exact ⟨finSum L / L.length, by simp [windowMean, hfin], div_pos hsum hlen⟩

/-- **C5** — corrected.  RSI saturates to exactly 100 at the end of a
strictly increasing run that covers the whole trailing delta window, i.e.
a strictly increasing segment of `period + 1` prices (so all `period`
deltas in the window are positive, making the rolling loss 0 and the
rolling gain positive, and the 0-division yields +inf and RSI = 100).  A
segment of length merely `≥ period` is not sufficient: the window then
still contains one delta from before the segment. -/
theorem C5_rsi_saturates (close : List ℚ) (p i : ℕ) (hp : 1 ≤ p) (hpi : p ≤ i)
    (hi : i < close.length)
    (hinc : ∀ j, i - p ≤ j → j < i → close.getD j 0 < close.getD (j + 1) 0) :
    (RSI close p)[i]? = some (EF.fin 100) := by
  set d := seriesDiff close with hd
  set a := i + 1 - p with ha
  have hdlen : d.length = close.length := length_seriesDiff close
  have hwin : ∀ e ∈ (d.drop a).take p, ∃ δ, e = EF.fin δ ∧ 0 < δ := by
    intro e he
    rcases mem_window d a p e he with ⟨k, hk, hke⟩
    have hak1 : (a + k - 1) + 1 = a + k := by omega
    have hsucc := seriesDiff_getElem_succ close (a + k - 1) (by omega)
    rw [hak1] at hsucc
    rw [← hd] at hsucc
    have he' : e = EF.fin (close.getD (a + k) 0 - close.getD (a + k - 1) 0) :=
      Option.some.inj (hke.symm.trans hsucc)
    have hlt : close.getD (a + k - 1) 0 < close.getD (a + k) 0 := by
      have := hinc (a + k - 1) (by omega) (by omega)
      rwa [hak1] at this
    exact ⟨_, he', sub_pos.2 hlt⟩
  -- the rolling gain at i is a positive finite value
  have hg := gain_getElem close p i hi
  rw [if_neg (by omega), gainRaw, ← hd, ← List.map_drop, ← List.map_take] at hg
  have hgall : ∀ e' ∈ ((d.drop a).take p).map
      (fun e => if EF.lt (EF.fin 0) e then e else EF.fin 0),
      ∃ q, e' = EF.fin q ∧ 0 < q := by
    intro e' he'
    rcases List.mem_map.1 he' with ⟨e, he, rfl⟩
    rcases hwin e he with ⟨δ, rfl, hδ⟩
    exact ⟨δ, by simp [EF.lt, hδ], hδ⟩
  have hne : ((d.drop a).take p).map
      (fun e => if EF.lt (EF.fin 0) e then e else EF.fin 0) ≠ [] := by
    have hl : (((d.drop a).take p).map
        (fun e => if EF.lt (EF.fin 0) e then e else EF.fin 0)).length = p := by
      rw [List.length_map, window_length d a p (by omega)]
    intro hcon
    rw [hcon] at hl
    simp at hl
    omega
  rcases windowMean_pos _ hgall hne with ⟨g, hgm, hgpos⟩
  rw [hgm] at hg
  -- the rolling loss at i is exactly 0
  have hl := loss_getElem close p i hi
  rw [if_neg (by omega), lossRaw, ← hd, ← List.map_drop, ← List.map_take] at hl
  have hlz : windowMean (((d.drop a).take p).map
      (fun e => EF.neg (if EF.lt e (EF.fin 0) then e else EF.fin 0))) = EF.fin 0 := by
    apply windowMean_zero
    intro e' he'
    rcases List.mem_map.1 he' with ⟨e, he, rfl⟩
    rcases hwin e he with ⟨δ, rfl, hδ⟩
    simp [EF.lt, EF.neg, asymm hδ]
  rw [hlz] at hl
  rw [RSI_entry close p i _ _ hg hl]
  have hgne : g ≠ 0 := ne_of_gt hgpos
  simp [EF.div, EF.add, EF.sub, EF.neg, hgne, hgpos]

/-- **C5** witness: prices [1,2,3] with period 2 — the strictly increasing
segment has period+1 = 3 prices, and RSI at its end is exactly 100. -/
theorem C5_rsi_saturates_witness :
    (RSI [1, 2, 3] 2)[2]? = some (EF.fin 100) := by
  refine C5_rsi_saturates [1, 2, 3] 2 2 (by norm_num) (by norm_num) (by decide) ?_
  intro j h1 h2
  interval_cases j <;> norm_num [List.getD]

/-- **C5** counterexample: prices [10,1,2] with period 2 contain the
strictly increasing segment [1,2] of length 2 = period, yet RSI at its end
(index 2) is 10, defined but not 100 — the window still holds the -9 delta
from before the segment. -/
theorem C5_counterexample :
    (RSI [10, 1, 2] 2)[2]? = some (EF.fin 10) ∧ (10 : ℚ) ≠ 100 := by
  exact ⟨by with_unfolding_all rfl, by norm_num⟩

theorem finSum_eq_zero_all_zero (L : List EF)
    (h : ∀ e ∈ L, ∃ q, e = EF.fin q ∧ 0 ≤ q) (hs : finSum L = 0) :
    ∀ e ∈ L, e = EF.fin 0 := by
  induction L with
  | nil => intro e he; simp at he
  | cons x rest ih =>
      rcases h x (List.mem_cons_self x rest) with ⟨q, hx, hq⟩
      subst hx
      simp only [finSum] at hs
      have hrest : 0 ≤ finSum rest :=
        finSum_nonneg rest (fun e he => h e (List.mem_cons_of_mem _ he))
      have hq0 : q = 0 := by linarith
      have hs0 : finSum rest = 0 := by linarith
      intro e he
      rcases List.mem_cons.1 he with rfl | hmem
      · rw [hq0]
      · exact ih (fun e' he' => h e' (List.mem_cons_of_mem _ he')) hs0 e hmem

theorem windowMean_nonneg (L : List EF)
    (h : ∀ e ∈ L, ∃ q, e = EF.fin q ∧ 0 ≤ q) :
    ∃ g, windowMean L = EF.fin g ∧ 0 ≤ g := by
  have hfin : allFin L = true :=
    (allFin_iff L).2 (fun e he => (h e he).imp fun q hq => hq.1)
  refine ⟨finSum L / L.length, by simp [windowMean, hfin], ?_⟩
  exact div_nonneg (finSum_nonneg L h) (by positivity)

theorem windowMean_zero_inv (L : List EF)
    (h : ∀ e ∈ L, ∃ q, e = EF.fin q ∧ 0 ≤ q) (hm : windowMean L = EF.fin 0) :
    ∀ e ∈ L, e = EF.fin 0 := by
  cases hL : L with
  | nil => intro e he; simp at he
  | cons x rest =>
      subst hL
      have hfin : allFin (x :: rest) = true :=
        (allFin_iff _).2 (fun e he => (h e he).imp fun q hq => hq.1)
      rw [windowMean, if_pos hfin] at hm
      have hdiv : finSum (x :: rest) / ((x :: rest).length : ℚ) = 0 := EF.fin.inj hm
      have hlen : ((x :: rest).length : ℚ) ≠ 0 := by
        simp only [List.length_cons]
        push_cast
        positivity
      have hs : finSum (x :: rest) = 0 := by
        rcases div_eq_zero_iff.1 hdiv with hs | hbad
        · exact hs
        · exact absurd hbad hlen
      exact finSum_eq_zero_all_zero _ h hs

theorem mem_of_getElem_opt {α : Type} {l : List α} {i : ℕ} {a : α}
    (h : l[i]? = some a) : a ∈ l := by
  rcases List.getElem?_eq_some.1 h with ⟨hlt, rfl⟩
  exact List.getElem_mem hlt

/-- **C10** — corrected.  RSI is absent for `i < p - 1` but is already
defined at index `p - 1`, not first at `p`: the `where` masking (lines
90-91) replaces the absent delta at index 0 by 0 before the rolling
means, so the gain and loss windows are full one index earlier than the
claim states.  At `p - 1` the value is defined whenever the first `p - 1`
deltas are not all zero (otherwise `0/0` gives NaN). -/
theorem C10_rsi_first_defined (close : List ℚ) (p : ℕ) (hp : 1 ≤ p) :
    (∀ i, i < p - 1 → i < close.length → (RSI close p)[i]? = some EF.nan) ∧
    (p - 1 < close.length →
      (∃ j, j + 1 < p ∧ close.getD (j + 1) 0 ≠ close.getD j 0) →
      ∃ q, (RSI close p)[p - 1]? = some (EF.fin q)) := by
  constructor
  · intro i hip hi
    have hg := gain_getElem close p i hi
    rw [if_pos (by omega)] at hg
    have hl := loss_getElem close p i hi
    rw [if_pos (by omega)] at hl
    rw [RSI_entry close p i _ _ hg hl]
    simp [EF.div, EF.add, EF.sub, EF.neg]
  · intro hlen hne
    set d := seriesDiff close with hd
    have hdlen : d.length = close.length := length_seriesDiff close
    have ha0 : p - 1 + 1 - p = 0 := by omega
    have hg := gain_getElem close p (p - 1) hlen
    rw [if_neg (by omega), ha0, gainRaw, ← hd, ← List.map_drop, ← List.map_take] at hg
    have hl := loss_getElem close p (p - 1) hlen
    rw [if_neg (by omega), ha0, lossRaw, ← hd, ← List.map_drop, ← List.map_take] at hl
    have hwin : ∀ e ∈ (d.drop 0).take p, e = EF.nan ∨ ∃ δ, e = EF.fin δ := by
      intro e he
      rcases mem_window d 0 p e he with ⟨k, _, hke⟩
      refine seriesDiff_nan_or_fin close e ?_
      rw [hd] at hke
      exact mem_of_getElem_opt hke
    have hgchar : ∀ e' ∈ ((d.drop 0).take p).map
        (fun e => if EF.lt (EF.fin 0) e then e else EF.fin 0),
        ∃ q, e' = EF.fin q ∧ 0 ≤ q := by
      intro e' he'
      rcases List.mem_map.1 he' with ⟨e, he, rfl⟩
      rcases hwin e he with rfl | ⟨δ, rfl⟩
      · exact ⟨0, by simp [EF.lt], le_refl 0⟩
      · by_cases hδ : 0 < δ
        · exact ⟨δ, by simp [EF.lt, hδ], le_of_lt hδ⟩
        · exact ⟨0, by simp [EF.lt, hδ], le_refl 0⟩
    have hlchar : ∀ e' ∈ ((d.drop 0).take p).map
        (fun e => EF.neg (if EF.lt e (EF.fin 0) then e else EF.fin 0)),
        ∃ q, e' = EF.fin q ∧ 0 ≤ q := by
      intro e' he'
      rcases List.mem_map.1 he' with ⟨e, he, rfl⟩
      rcases hwin e he with rfl | ⟨δ, rfl⟩
      · exact ⟨0, by simp [EF.lt, EF.neg], le_refl 0⟩
      · by_cases hδ : δ < 0
        · exact ⟨-δ, by simp [EF.lt, EF.neg, hδ], by linarith⟩
        · exact ⟨0, by simp [EF.lt, EF.neg, hδ], le_refl 0⟩
    rcases windowMean_nonneg _ hgchar with ⟨g, hgm, hgnn⟩
    rcases windowMean_nonneg _ hlchar with ⟨l, hlm, hlnn⟩
    rw [hgm] at hg
    rw [hlm] at hl
    by_cases hl0 : l = 0
    · by_cases hg0 : g = 0
      · exfalso
        subst hl0
        subst hg0
        have hgz := windowMean_zero_inv _ hgchar hgm
        have hlz := windowMean_zero_inv _ hlchar hlm
        rcases hne with ⟨j, hjp, hjne⟩
        have hjlen : j + 1 < close.length := by omega
        have hdj := seriesDiff_getElem_succ close j hjlen
        rw [← hd] at hdj
        have hmem : EF.fin (close.getD (j + 1) 0 - close.getD j 0) ∈
            (d.drop 0).take p := by
          apply mem_of_getElem_opt (i := j + 1)
          rw [List.getElem?_take, if_pos (by omega), List.getElem?_drop]
          simpa using hdj
        set δ := close.getD (j + 1) 0 - close.getD j 0 with hδdef
        have hδne : δ ≠ 0 := sub_ne_zero.2 hjne
        have hg0' := hgz _ (List.mem_map_of_mem
          (fun e => if EF.lt (EF.fin 0) e then e else EF.fin 0) hmem)
        have hl0' := hlz _ (List.mem_map_of_mem
          (fun e => EF.neg (if EF.lt e (EF.fin 0) then e else EF.fin 0)) hmem)
        by_cases hδpos : 0 < δ
        · have : EF.fin δ = EF.fin 0 := by simpa [EF.lt, hδpos] using hg0'
          exact hδne (EF.fin.inj this)
        · by_cases hδneg : δ < 0
          · have : EF.fin (-δ) = EF.fin 0 := by simpa [EF.lt, EF.neg, hδneg] using hl0'
            have := EF.fin.inj this
            exact hδne (by linarith)
          · exact hδne (le_antisymm (not_lt.1 hδpos) (not_lt.1 hδneg))
      · refine ⟨100, ?_⟩
        rw [RSI_entry close p (p - 1) _ _ hg hl]
        subst hl0
        have hgpos : 0 < g := lt_of_le_of_ne hgnn (Ne.symm hg0)
        simp [EF.div, EF.add, EF.sub, EF.neg, hg0, hgpos]
    · have hlpos : 0 < l := lt_of_le_of_ne hlnn (Ne.symm hl0)
      have hgl : (0:ℚ) ≤ g / l := div_nonneg hgnn (le_of_lt hlpos)
      have h2 : (1 : ℚ) + g / l ≠ 0 := by positivity
      refine ⟨100 - 100 / (1 + g / l), ?_⟩
      rw [RSI_entry close p (p - 1) _ _ hg hl]
      simp [EF.div, EF.add, EF.sub, EF.neg, hl0, h2]
      ring

/-- **C10** witness: for prices [1,2,3] and period 2, RSI is absent at
index 0 and already defined at index p-1 = 1. -/
theorem C10_rsi_first_defined_witness :
    (RSI [1, 2, 3] 2)[0]? = some EF.nan ∧
      ∃ q, (RSI [1, 2, 3] 2)[1]? = some (EF.fin q) := by
  constructor
  · exact (C10_rsi_first_defined [1, 2, 3] 2 (by norm_num)).1 0 (by norm_num) (by decide)
  · exact (C10_rsi_first_defined [1, 2, 3] 2 (by norm_num)).2 (by decide)
      ⟨0, by norm_num, by norm_num [List.getD]⟩

/-- **C10** counterexample: for prices [1,2,3] and period 2 the claim
says RSI is absent at every index below p = 2, but RSI at index 1 is the
defined value 100. -/
theorem C10_counterexample :
    (RSI [1, 2, 3] 2)[1]? = some (EF.fin 100) ∧ EF.fin (100 : ℚ) ≠ EF.nan := by
  exact ⟨by with_unfolding_all rfl, fun h => EF.noConfusion h⟩

theorem zipWith_self_eq_map {α β : Type} (f : α → α → β) (L : List α) :
    List.zipWith f L L = L.map (fun x => f x x) := by
  induction L with
  | nil => rfl
  | cons x rest ih => simp [ih]

theorem ewmGo_const (α c : ℚ) : ∀ (m : ℕ),
    ewmGo α c (List.replicate m c) = List.replicate m c := by
  intro m
  induction m with
  | zero => rfl
  | succ k ih =>
      rw [List.replicate_succ]
      simp only [ewmGo]
      have he : α * c + (1 - α) * c = c := by ring
      rw [he, ih]

theorem ewm_const (s : ℕ) (c : ℚ) (n : ℕ) :
    ewm s (List.replicate n c) = List.replicate n c := by
  cases n with
  | zero => rfl
  | succ k =>
      rw [List.replicate_succ]
      simp only [ewm]
      rw [ewmGo_const, ← List.replicate_succ]

theorem MACD_const (c : ℚ) (n : ℕ) (ps : Params) :
    MACD (List.replicate n c) ps = List.replicate n 0 := by
  rw [MACD, ewm_const, ewm_const, zipWith_self_eq_map, List.map_replicate]
  simp

theorem Signal_Line_const (c : ℚ) (n : ℕ) (ps : Params) :
    Signal_Line (List.replicate n c) ps = List.replicate n 0 := by
  rw [Signal_Line, MACD_const, ewm_const]

theorem macdSignal_const (c : ℚ) (n : ℕ) (ps : Params) :
    macdSignal (List.replicate n c) ps = List.replicate n 0 := by
  rw [macdSignal, MACD_const, Signal_Line_const, zipWith_self_eq_map, List.map_replicate]
  simp

theorem diffZip_flat (c : ℚ) : ∀ (m : ℕ),
    List.zipWith (fun a b => EF.fin (b - a)) (c :: List.replicate m c)
      (List.replicate m c) = List.replicate m (EF.fin 0) := by
  intro m
  induction m with
  | zero => rfl
  | succ k ih =>
      rw [List.replicate_succ, List.zipWith_cons_cons, ih, sub_self,
        ← List.replicate_succ]

theorem seriesDiff_flat (c : ℚ) (m : ℕ) :
    seriesDiff (List.replicate (m + 1) c) = EF.nan :: List.replicate m (EF.fin 0) := by
  rw [List.replicate_succ]
  simp only [seriesDiff]
  rw [diffZip_flat]

theorem gainRaw_flat (c : ℚ) (n : ℕ) :
    gainRaw (seriesDiff (List.replicate n c)) = List.replicate n (EF.fin 0) := by
  cases n with
  | zero => rfl
  | succ m =>
      rw [seriesDiff_flat, gainRaw, List.map_cons, List.map_replicate]
      simp [EF.lt]
      rw [← List.replicate_succ]

theorem lossRaw_flat (c : ℚ) (n : ℕ) :
    lossRaw (seriesDiff (List.replicate n c)) = List.replicate n (EF.fin 0) := by
  cases n with
  | zero => rfl
  | succ m =>
      rw [seriesDiff_flat, lossRaw, List.map_cons, List.map_replicate]
      simp [EF.lt, EF.neg]
      rw [← List.replicate_succ]

theorem rollingMean_flat_entries (p n : ℕ) :
    ∀ x ∈ rollingMean p (List.replicate n (EF.fin 0)), x = EF.nan ∨ x = EF.fin 0 := by
  intro x hx
  rw [rollingMean] at hx
  rcases List.mem_map.1 hx with ⟨i, _, rfl⟩
  by_cases hip : i + 1 < p
  · left
    rw [if_pos hip]
  · right
    rw [if_neg hip, List.drop_replicate, List.take_replicate]
    exact windowMean_zero _ (fun e he => List.eq_of_mem_replicate he)

theorem RSI_flat_nan (c : ℚ) (n p : ℕ) :
    ∀ e ∈ RSI (List.replicate n c) p, e = EF.nan := by
  intro e he
  rw [RSI, gain, loss, gainRaw_flat, lossRaw_flat, zipWith_self_eq_map] at he
  rcases List.mem_map.1 he with ⟨x, hx, rfl⟩
  rcases rollingMean_flat_entries p n x hx with rfl | rfl
  · simp [EF.div, EF.add, EF.sub, EF.neg]
  · simp [EF.div, EF.add, EF.sub, EF.neg]

theorem rsiSignal_flat (c : ℚ) (n : ℕ) (ps : Params) :
    ∀ x ∈ rsiSignal (List.replicate n c) ps, x = 0 := by
  intro x hx
  rw [rsiSignal] at hx
  rcases List.mem_map.1 hx with ⟨e, he, rfl⟩
  rw [RSI_flat_nan c n ps.rsi_period e he]
  simp [EF.lt]

theorem pctChangeGo_const (c : ℚ) (hc : c ≠ 0) : ∀ (m : ℕ),
    ∀ x ∈ pctChangeGo c (List.replicate m c), x = EF.fin 0 := by
  intro m
  induction m with
  | zero => intro x hx; simp [pctChangeGo] at hx
  | succ k ih =>
      intro x hx
      rw [List.replicate_succ] at hx
      simp only [pctChangeGo, List.mem_cons] at hx
      rcases hx with rfl | hx
      · simp [EF.div, EF.sub, EF.add, EF.neg, hc, div_self hc]
      · exact ih x hx

theorem pct_change_flat_entries (c : ℚ) (hc : c ≠ 0) (n : ℕ) :
    ∀ v ∈ pct_change (List.replicate n c), v = EF.nan ∨ v = EF.fin 0 := by
  cases n with
  | zero => intro v hv; simp [pct_change] at hv
  | succ m =>
      intro v hv
      rw [List.replicate_succ] at hv
      simp only [pct_change, List.mem_cons] at hv
      rcases hv with rfl | hv
      · exact Or.inl rfl
      · exact Or.inr (pctChangeGo_const c hc m v hv)

theorem seriesSum_flat_go : ∀ (L : List EF),
    (∀ x ∈ L, x = EF.nan ∨ x = EF.fin 0) →
    L.foldl (fun acc x => if x.isNaN then acc else EF.add acc x) (EF.fin 0) = EF.fin 0 := by
  intro L
  induction L with
  | nil => intro _; rfl
  | cons x rest ih =>
      intro h
      have htail := fun y hy => h y (List.mem_cons_of_mem _ hy)
      rcases h x (List.mem_cons_self x rest) with rfl | rfl
      · simpa [EF.isNaN] using ih htail
      · have hstep : EF.add (EF.fin 0) (EF.fin 0) = EF.fin 0 := by
          simp [EF.add]
        simpa [EF.isNaN, hstep] using ih htail

theorem seriesSum_flat (L : List EF) (h : ∀ x ∈ L, x = EF.nan ∨ x = EF.fin 0) :
    seriesSum L = EF.fin 0 :=
  seriesSum_flat_go L h

theorem shift1_nan_or_fin (sig : List ℤ) :
    ∀ u ∈ shift1 sig, u = EF.nan ∨ ∃ s : ℚ, u = EF.fin s := by
  intro u hu
  rw [shift1] at hu
  rcases List.mem_cons.1 hu with rfl | hmem
  · exact Or.inl rfl
  · have hmem' : u ∈ sig.map (fun (s : ℤ) => EF.fin (s : ℚ)) :=
      List.dropLast_subset _ hmem
    rcases List.mem_map.1 hmem' with ⟨s, _, rfl⟩
    exact Or.inr ⟨(s : ℚ), rfl⟩

theorem Strategy_Return_flat_entries (sig : List ℤ) (ret : List EF)
    (hret : ∀ v ∈ ret, v = EF.nan ∨ v = EF.fin 0) :
    ∀ x ∈ Strategy_Return sig ret, x = EF.nan ∨ x = EF.fin 0 := by
  intro x hx
  rcases List.mem_iff_getElem?.1 hx with ⟨i, hi⟩
  rw [Strategy_Return, List.getElem?_zipWith] at hi
  rcases hu : (shift1 sig)[i]? with _ | u <;> rw [hu] at hi
  · simp at hi
  rcases hv : ret[i]? with _ | v <;> rw [hv] at hi
  · simp at hi
  have hx' : x = EF.mul u v := (Option.some.inj hi).symm
  subst hx'
  rcases hret v (mem_of_getElem_opt hv) with rfl | rfl
  · exact Or.inl (EF.mul_nan_right u)
  · rcases shift1_nan_or_fin sig u (mem_of_getElem_opt hu) with rfl | ⟨s, rfl⟩
    · exact Or.inl rfl
    · right
      simp [EF.mul]

theorem runBacktest_total (name : String) (close : List ℚ) (ps : Params) (sig : List ℤ)
    (hdisp : dispatchSignal name close ps = some sig)
    (hret : ∀ v ∈ pct_change close, v = EF.nan ∨ v = EF.fin 0) :
    ∃ o, runBacktest name close ps = .ok o ∧
      o.totalStrategy = EF.fin 0 ∧ o.totalMarket = EF.fin 0 := by
  refine ⟨⟨cumulative (pct_change close),
    cumulative (Strategy_Return sig (pct_change close)),
    seriesSum (pct_change close),
    seriesSum (Strategy_Return sig (pct_change close))⟩, ?_, ?_, ?_⟩
  · simp only [runBacktest, hdisp]
  · exact seriesSum_flat _ (Strategy_Return_flat_entries sig _ hret)
  · exact seriesSum_flat _ hret

/-- **C8** — corrected.  On a constant price series every RSI signal and
every MACD signal is 0, and the total strategy return (skipna sum of the
Strategy_Return column) is 0 for every strategy — but the stated reason
"RSI = 50" is wrong: on a flat series gain = loss = 0, so `rs = 0/0` is
NaN and RSI is NaN (absent) everywhere; the signals are flat because NaN
fails both comparisons, not because RSI equals 50. -/
theorem C8_flat_series (c : ℚ) (n : ℕ) (ps : Params) (hc : c ≠ 0) :
    (∀ x ∈ rsiSignal (List.replicate n c) ps, x = 0) ∧
    (∀ x ∈ macdSignal (List.replicate n c) ps, x = 0) ∧
    (∀ name ∈ strategyOptions,
      ∃ o, runBacktest name (List.replicate n c) ps = .ok o ∧
        o.totalStrategy = EF.fin 0 ∧ o.totalMarket = EF.fin 0) := by
  have hret := pct_change_flat_entries c hc n
  refine ⟨rsiSignal_flat c n ps, ?_, ?_⟩
  · intro x hx
    rw [macdSignal_const] at hx
    exact List.eq_of_mem_replicate hx
  · intro name hname
    simp only [strategyOptions, List.mem_cons, List.mem_singleton,
      List.not_mem_nil, or_false] at hname
    rcases hname with rfl | rfl | rfl
    · exact runBacktest_total _ _ ps (maSignal (List.replicate n c) ps)
        (by simp [dispatchSignal]) hret
    · exact runBacktest_total _ _ ps (rsiSignal (List.replicate n c) ps)
        (by simp [dispatchSignal]) hret
    · exact runBacktest_total _ _ ps (macdSignal (List.replicate n c) ps)
        (by simp [dispatchSignal]) hret

/-- **C8** witness: the theorem applied to the constant series of length
300 with value 1 and the default parameters. -/
theorem C8_flat_series_witness :
    (∀ x ∈ rsiSignal (List.replicate 300 (1 : ℚ)) defaultParams, x = 0) ∧
    (∀ x ∈ macdSignal (List.replicate 300 (1 : ℚ)) defaultParams, x = 0) ∧
    (∀ name ∈ strategyOptions,
      ∃ o, runBacktest name (List.replicate 300 (1 : ℚ)) defaultParams = .ok o ∧
        o.totalStrategy = EF.fin 0 ∧ o.totalMarket = EF.fin 0) :=
  C8_flat_series 1 300 defaultParams (by norm_num)

set_option maxRecDepth 100000 in
/-- **C8** counterexample: on the constant length-300 series the RSI with
the default period 14 is NaN after the warm-up (index 20), not 50 as the
claim asserts. -/
theorem C8_counterexample :
    (RSI (List.replicate 300 (1 : ℚ)) 14)[20]? = some EF.nan ∧
      some EF.nan ≠ some (EF.fin (50 : ℚ)) := by
  constructor
  · with_unfolding_all rfl
  · intro h
    exact EF.noConfusion (Option.some.inj h)
